import Mathlib

/-!
Shallow embedding of the `wod` crate's diff-copy engine (`src/lib.rs`).

The filesystem is modelled as an association list from paths (lists of
name segments) into entries; a file entry carries its byte content, a
modification timestamp, and a readability flag.  A global clock stamps
every write, and a log records every path opened for writing, so that
"no write happened" is visible in the state.  The three public
operations `write_on_file_diff`, `write_on_bytes_diff` and
`write_on_dir_diff` are embedded as `writeOnFileDiff`,
`writeOnBytesDiff` and `writeOnDirDiff`, each parameterized by the hash
function `h` (the Rust code is generic over `H : Hasher + Default`; a
hasher started fresh and fed a byte stream is modelled as an arbitrary
function from the absorbed bytes into a digest).  Directory recursion is
driven by fuel; exhausted fuel is an error, so facts proved about
successful runs hold for the real recursion.
-/

namespace Wod

/-- Byte strings: each element is one byte. -/
abbrev Bytes := List Nat

/-- A filesystem path, as its list of name segments (`[]` is the root). -/
abbrev FsPath := List String

/-- The `std::io` error classifications the operations can surface. -/
inductive IOError where
  | notFound
  | permissionDenied
  | isADirectory
  | notADirectory
  | other
deriving DecidableEq, Repr

/-- A regular file: content, modification time, readability. -/
structure FileData where
  content : Bytes
  mtime : Nat
  readable : Bool
deriving DecidableEq, Repr

/-- A directory entry: a regular file or a directory. -/
inductive Entry where
  | file (data : FileData)
  | dir
deriving DecidableEq, Repr

/-- The filesystem state: entries keyed by path, a clock used for stamping
modification times, and a log of the paths opened for writing (most
recent first). -/
structure FS where
  entries : List (FsPath × Entry)
  clock : Nat
  log : List FsPath
deriving DecidableEq, Repr

/-- Outcome of one operation: success or an error, with the filesystem
state after the call in either case. -/
inductive RunResult where
  | ok (fs : FS)
  | err (e : IOError) (fs : FS)
deriving DecidableEq, Repr

/-- The filesystem state carried by a `RunResult`. -/
def RunResult.fsOf : RunResult → FS
  | .ok fs => fs
  | .err _ fs => fs

/-- Whether a `RunResult` is a success. -/
def RunResult.isOk : RunResult → Bool
  | .ok _ => true
  | .err _ _ => false

/-- First entry stored under a path, if any. -/
def lookupEntry : List (FsPath × Entry) → FsPath → Option Entry
  | [], _ => none
  | pe :: rest, p => if pe.1 = p then some pe.2 else lookupEntry rest p

/-- Remove every entry stored under a path. -/
def eraseEntry : List (FsPath × Entry) → FsPath → List (FsPath × Entry)
  | [], _ => []
  | pe :: rest, p => if pe.1 = p then eraseEntry rest p else pe :: eraseEntry rest p

/-- `Path::exists`: the root always exists; otherwise an entry must be
present. -/
def existsPath (fs : FS) (p : FsPath) : Bool :=
  p = [] || (lookupEntry fs.entries p).isSome

/-- `Path::is_dir`: the path names a directory entry. -/
def isDir (fs : FS) (p : FsPath) : Bool :=
  p = [] || lookupEntry fs.entries p = some Entry.dir

/-- `File::open` followed by reading the whole content: fails with the
OS classification when the path is absent, a directory, or unreadable. -/
def readFile (fs : FS) (p : FsPath) : Except IOError Bytes :=
  match lookupEntry fs.entries p with
  | none => .error .notFound
  | some .dir => .error .isADirectory
  | some (.file d) => if d.readable then .ok d.content else .error .permissionDenied

/-- `File::create` followed by writing `c`: fails when the target is a
directory or its parent directory is missing or not a directory.  A
successful write stamps the current clock as the new modification time
and logs the path. -/
def writeFile (fs : FS) (p : FsPath) (c : Bytes) (rd : Bool) : Except IOError FS :=
  match lookupEntry fs.entries p with
  | some .dir => .error .isADirectory
  | _ =>
    if p = [] then .error .other
    else
      match p.dropLast, lookupEntry fs.entries p.dropLast with
      | [], _ | _, some .dir =>
        .ok { entries := (p, .file ⟨c, fs.clock, rd⟩) :: eraseEntry fs.entries p,
              clock := fs.clock + 1,
              log := p :: fs.log }
      | _ :: _, some (.file _) => .error .notADirectory
      | _ :: _, none => .error .notFound

/-- `fs::copy(a, b)`: read `a` in full, then create/truncate `b` with
that content (permission bits of `a` are carried over). -/
def fsCopy (fs : FS) (a b : FsPath) : Except IOError FS :=
  match lookupEntry fs.entries a with
  | none => .error .notFound
  | some .dir => .error .isADirectory
  | some (.file d) =>
    if d.readable then writeFile fs b d.content d.readable
    else .error .permissionDenied

/-- The name under which `k` is an immediate child of `p`, if it is one. -/
def childName (p k : FsPath) : Option String :=
  if k.dropLast = p then k.getLast? else none

/-- `fs::read_dir`: the names of the immediate children of `p`, in
storage order; fails when `p` is not a directory. -/
def readDir (fs : FS) (p : FsPath) : Except IOError (List String) :=
  if isDir fs p then .ok (fs.entries.filterMap fun pe => childName p pe.1)
  else match lookupEntry fs.entries p with
    | some (.file _) => .error .notADirectory
    | _ => .error .notFound

/-- Worker for `fs::create_dir_all`: create each missing component of
`rest` below the already-validated `done`, failing when a component
exists as a file. -/
def createDirAllGo : FS → FsPath → List String → Except IOError FS
  | fs, _, [] => .ok fs
  | fs, done, n :: rest =>
    let cur := done ++ [n]
    match lookupEntry fs.entries cur with
    | some .dir => createDirAllGo fs cur rest
    | some (.file _) => .error .notADirectory
    | none => createDirAllGo { fs with entries := (cur, .dir) :: fs.entries } cur rest

/-- `fs::create_dir_all(p)`. -/
def createDirAll (fs : FS) (p : FsPath) : Except IOError FS :=
  createDirAllGo fs [] p

/-- A `Hasher` that has absorbed a byte stream (the Rust code is generic
over the algorithm, so only the absorbed stream is tracked; `finish`
applies the algorithm `h`). -/
structure Hasher where
  absorbed : Bytes
deriving DecidableEq, Repr

/-- `Hasher::write`: absorb a buffer. -/
def hasherWrite (hs : Hasher) (buf : Bytes) : Hasher :=
  ⟨hs.absorbed ++ buf⟩

/-- `Hasher::finish` under algorithm `h`. -/
def hasherFinish (h : Bytes → Nat) (hs : Hasher) : Nat :=
  h hs.absorbed

/-- `<HashWriter as io::Write>::write`: absorbs the buffer into the
hasher and reports the full buffer length as written, never failing. -/
def hashWriterWrite (hs : Hasher) (buf : Bytes) : Except IOError (Hasher × Nat) :=
  .ok (hasherWrite hs buf, buf.length)

/-- `io::copy` from an in-memory source (`Cursor`) into a `HashWriter`:
one full write of the data. -/
def ioCopyToHashWriter (data : Bytes) (hs : Hasher) : Except IOError Hasher :=
  match hashWriterWrite hs data with
  | .ok (hs', _) => .ok hs'
  | .error e => .error e

/-- Digest of a byte stream: stream it through a fresh hasher and
finish.  Mirrors the `HashWriter(build_hasher.build_hasher())` blocks. -/
def digest (h : Bytes → Nat) (data : Bytes) : Except IOError Nat :=
  match ioCopyToHashWriter data ⟨[]⟩ with
  | .ok hs => .ok (hasherFinish h hs)
  | .error e => .error e

/-- `write_on_file_diff::<H>(from, to)` (src/lib.rs:25-46): hash `from`
(fatal on failure), try hashing `dst` (failure coerced into "no digest"),
and `fs::copy` only when the optional destination digest differs from
the source digest. -/
def writeOnFileDiff (h : Bytes → Nat) (fs : FS) (fr dst : FsPath) : RunResult :=
  match readFile fs fr with
  | .error e => .err e fs
  | .ok fromBytes =>
    match digest h fromBytes with
    | .error e => .err e fs
    | .ok fromHash =>
      let toHash : Except IOError Nat :=
        match readFile fs dst with
        | .error e => .error e
        | .ok toBytes => digest h toBytes
      if toHash.toOption ≠ some fromHash then
        match fsCopy fs fr dst with
        | .error e => .err e fs
        | .ok fs' => .ok fs'
      else .ok fs

/-- `write_on_bytes_diff::<H>(from, to)` (src/lib.rs:48-68): hash the
in-memory source, try hashing `dst`, and write the bytes at `dst` only
when the optional destination digest differs. -/
def writeOnBytesDiff (h : Bytes → Nat) (fs : FS) (fr : Bytes) (dst : FsPath) : RunResult :=
  match digest h fr with
  | .error e => .err e fs
  | .ok fromHash =>
    let toHash : Except IOError Nat :=
      match readFile fs dst with
      | .error e => .error e
      | .ok toBytes => digest h toBytes
    if toHash.toOption ≠ some fromHash then
      match writeFile fs dst fr true with
      | .error e => .err e fs
      | .ok fs' => .ok fs'
    else .ok fs

/-- The `for entry in fs::read_dir(from)?` loop body of
`write_on_dir_diff` (src/lib.rs:80-94): recurse into subdirectories
(via `recur`, the one-level-less-fuel instance of the whole operation),
diff-copy files whose destination exists, plain-copy files whose
destination is absent. -/
def processEntries (h : Bytes → Nat) (recur : FS → FsPath → FsPath → RunResult) :
    FS → FsPath → FsPath → List String → RunResult
  | fs, _, _, [] => .ok fs
  | fs, fr, dst, n :: rest =>
    let fromPath := fr ++ [n]
    let toPath := dst ++ [n]
    let step : RunResult :=
      if isDir fs fromPath then recur fs fromPath toPath
      else if existsPath fs toPath then writeOnFileDiff h fs fromPath toPath
      else
        match fsCopy fs fromPath toPath with
        | .error e => .err e fs
        | .ok fs' => .ok fs'
    match step with
    | .ok fs' => processEntries h recur fs' fr dst rest
    | .err e fs' => .err e fs'

/-- `write_on_dir_diff::<H>(from, to)` (src/lib.rs:70-96): create `dst`
when absent, list `from`, and process each child.  `fuel` bounds the
recursion depth; running out of fuel is an error, so successful runs
coincide with terminating runs of the Rust recursion. -/
def writeOnDirDiff (h : Bytes → Nat) : Nat → FS → FsPath → FsPath → RunResult
  | 0, fs, _, _ => .err .other fs
  | fuel + 1, fs, fr, dst =>
    let step1 : Except IOError FS :=
      if existsPath fs dst then .ok fs else createDirAll fs dst
    match step1 with
    | .error e => .err e fs
    | .ok fs1 =>
      match readDir fs1 fr with
      | .error e => .err e fs1
      | .ok names => processEntries h (writeOnDirDiff h fuel) fs1 fr dst names


/-! ### Derived notions used by the directory-level statements -/

/-- Neither path is an ancestor-or-self of the other: the two directory
trees are disjoint. -/
def Incomparable (p q : FsPath) : Prop :=
  ¬ p <+: q ∧ ¬ q <+: p

/-- The source subtree is shaped like a directory tree: for every stored
entry below `fr`, every intermediate path strictly between `fr` and the
entry is stored as a directory. -/
def SrcWF (fs : FS) (fr : FsPath) : Prop :=
  ∀ pe ∈ fs.entries, fr <+: pe.1 →
    ∀ q ∈ pe.1.inits, fr <+: q → fr ≠ q → q ≠ pe.1 →
      lookupEntry fs.entries q = some Entry.dir

instance (p q : FsPath) : Decidable (Incomparable p q) :=
  inferInstanceAs (Decidable (¬ p <+: q ∧ ¬ q <+: p))

instance (fs : FS) (fr : FsPath) : Decidable (SrcWF fs fr) :=
  inferInstanceAs (Decidable (∀ pe ∈ fs.entries, fr <+: pe.1 →
    ∀ q ∈ pe.1.inits, fr <+: q → fr ≠ q → q ≠ pe.1 →
      lookupEntry fs.entries q = some Entry.dir))

/-- Effect summary of one directory-recursion level targeting `dst`:
paths incomparable with `dst` are untouched, and existing directories
are never overwritten. -/
def DirFrame (fs fs' : FS) (dst : FsPath) : Prop :=
  (∀ q, Incomparable q dst → lookupEntry fs'.entries q = lookupEntry fs.entries q) ∧
  (∀ q, lookupEntry fs.entries q = some Entry.dir →
    lookupEntry fs'.entries q = some Entry.dir)

/-! ### Concrete fixtures for counterexamples and witnesses -/

/-- A constant hash algorithm (a legal `Hasher + Default` instance: every
stream collides). -/
def hZero : Bytes → Nat := fun _ => 0

/-- A hash algorithm returning the first byte (collision-free on the
one-byte contents used in the fixtures). -/
def hHead : Bytes → Nat := fun b => b.headD 0

/-- Three root-level files: `a` and `c` hold byte 1, `b` holds byte 2. -/
def fsAB : FS :=
  ⟨[(["a"], .file ⟨[1], 0, true⟩), (["b"], .file ⟨[2], 0, true⟩),
    (["c"], .file ⟨[1], 0, true⟩)], 10, []⟩

/-- `fsAB` after copying `a` over `b`. -/
def fsAB1 : FS :=
  ⟨[(["b"], .file ⟨[1], 10, true⟩), (["a"], .file ⟨[1], 0, true⟩),
    (["c"], .file ⟨[1], 0, true⟩)], 11, [["b"]]⟩

/-- `fsAB` after copying `a` to the previously absent `zz`. -/
def fsZ : FS :=
  ⟨[(["zz"], .file ⟨[1], 10, true⟩), (["a"], .file ⟨[1], 0, true⟩),
    (["b"], .file ⟨[2], 0, true⟩), (["c"], .file ⟨[1], 0, true⟩)], 11, [["zz"]]⟩

/-- `fsAB` after writing bytes `[9]` over `b`. -/
def fsB9 : FS :=
  ⟨[(["b"], .file ⟨[9], 10, true⟩), (["a"], .file ⟨[1], 0, true⟩),
    (["c"], .file ⟨[1], 0, true⟩)], 11, [["b"]]⟩

/-- A filesystem with an unreadable source file `u`. -/
def fsPerm : FS :=
  ⟨[(["u"], .file ⟨[3], 0, false⟩), (["b"], .file ⟨[2], 0, true⟩)], 0, []⟩

/-- A filesystem holding a single directory `t`. -/
def fsOneDir : FS := ⟨[(["t"], .dir)], 0, []⟩

/-- An empty source directory `s` next to a regular file `f`. -/
def fsC10 : FS := ⟨[(["s"], .dir), (["f"], .file ⟨[5], 0, true⟩)], 10, []⟩

/-- Disjoint trees `s` and `d` whose files `x` differ in content (byte 1
vs byte 2) but collide under `hZero`. -/
def fsC4c : FS :=
  ⟨[(["s"], .dir), (["s","x"], .file ⟨[1], 0, true⟩),
    (["d"], .dir), (["d","x"], .file ⟨[2], 0, true⟩)], 0, []⟩

/-- Overlapping pair: the source `t/d` lies inside the destination `t`.
The file `t/d/x` (byte 2) is shadowed mid-run by a copy of `t/d/d/x`
(byte 1). -/
def fsC4o : FS :=
  ⟨[(["t"], .dir), (["t","d"], .dir), (["t","d","d"], .dir),
    (["t","d","d","x"], .file ⟨[1], 0, true⟩),
    (["t","d","x"], .file ⟨[2], 0, true⟩)], 10, []⟩

/-- Overlapping pair for the merge-preservation counterexample: source
`t/d` inside destination `t`; the traversal first copies `t/d/d/n/x`
(byte 1) to `t/d/n/x`, then, reaching the initially present directory
`t/d/n`, copies that fresh file over the destination-only file `t/n/x`
(byte 2). -/
def fsC5 : FS :=
  ⟨[(["t"], .dir), (["t","d"], .dir), (["t","d","d"], .dir),
    (["t","d","d","n"], .dir), (["t","d","d","n","x"], .file ⟨[1], 0, true⟩),
    (["t","d","n"], .dir), (["t","n"], .dir),
    (["t","n","x"], .file ⟨[2], 0, true⟩)], 10, []⟩

/-- A well-formed source tree `s` with a nested file, next to a
destination tree `d` holding a destination-only file `keep`. -/
def fsWit : FS :=
  ⟨[(["s"], .dir), (["s","a"], .dir), (["s","a","x"], .file ⟨[7], 0, true⟩),
    (["d"], .dir), (["d","keep"], .file ⟨[9], 0, true⟩)], 0, []⟩

/-! ### Basic lemmas about the filesystem primitives -/

theorem digest_eq (h : Bytes → Nat) (d : Bytes) : digest h d = .ok (h d) := rfl

theorem lookupEntry_eraseEntry (l : List (FsPath × Entry)) (p q : FsPath) :
    lookupEntry (eraseEntry l p) q = if q = p then none else lookupEntry l q := by
  induction l with
  | nil => simp [eraseEntry, lookupEntry]
  | cons pe rest ih =>
    simp only [eraseEntry, lookupEntry]
    by_cases h1 : pe.1 = p
    · rw [if_pos h1, ih]
      by_cases hq : q = p
      · simp [hq]
      · rw [if_neg hq, if_neg hq, if_neg (fun h2 : pe.1 = q => hq (h2.symm.trans h1))]
    · rw [if_neg h1]
      simp only [lookupEntry]
      by_cases h2 : pe.1 = q
      · rw [if_pos h2, if_pos h2, if_neg (fun hq : q = p => h1 (h2.trans hq))]
      · rw [if_neg h2, if_neg h2, ih]

theorem writeFile_ok (fs : FS) (p : FsPath) (c : Bytes) (rd : Bool) (fs' : FS)
    (hw : writeFile fs p c rd = .ok fs') :
    fs' = { entries := (p, .file ⟨c, fs.clock, rd⟩) :: eraseEntry fs.entries p,
            clock := fs.clock + 1,
            log := p :: fs.log } := by
  unfold writeFile at hw
  split at hw
  · exact absurd hw (by simp)
  · split at hw
    · exact absurd hw (by simp)
    · split at hw
      · simp_all
      · simp_all
      · exact absurd hw (by simp)
      · exact absurd hw (by simp)

theorem writeFile_ok_lookup (fs : FS) (p : FsPath) (c : Bytes) (rd : Bool) (fs' : FS)
    (hw : writeFile fs p c rd = .ok fs') (q : FsPath) :
    lookupEntry fs'.entries q =
      if q = p then some (.file ⟨c, fs.clock, rd⟩) else lookupEntry fs.entries q := by
  rw [writeFile_ok fs p c rd fs' hw]
  simp only [lookupEntry]
  by_cases hq : q = p
  · rw [if_pos hq.symm, if_pos hq]
  · rw [if_neg (fun h : p = q => hq h.symm), if_neg hq, lookupEntry_eraseEntry,
      if_neg hq]

theorem readFile_ok (fs : FS) (p : FsPath) (c : Bytes)
    (hr : readFile fs p = .ok c) :
    ∃ d : FileData, lookupEntry fs.entries p = some (.file d) ∧
      d.readable = true ∧ d.content = c := by
  unfold readFile at hr
  split at hr
  · exact absurd hr (by simp)
  · exact absurd hr (by simp)
  · rename_i d hl
    split at hr
    · rename_i hrd
      exact ⟨d, hl, hrd, by simpa using hr⟩
    · exact absurd hr (by simp)

theorem fsCopy_ok (fs : FS) (a b : FsPath) (fs' : FS)
    (hcp : fsCopy fs a b = .ok fs') :
    ∃ d : FileData, lookupEntry fs.entries a = some (.file d) ∧ d.readable = true ∧
      writeFile fs b d.content true = .ok fs' := by
  unfold fsCopy at hcp
  split at hcp
  · exact absurd hcp (by simp)
  · exact absurd hcp (by simp)
  · rename_i d hl
    split at hcp
    · rename_i hrd
      exact ⟨d, hl, hrd, by rwa [hrd] at hcp⟩
    · exact absurd hcp (by simp)

theorem fsCopy_of_readFile (fs : FS) (a b : FsPath) (c : Bytes)
    (hr : readFile fs a = .ok c) :
    fsCopy fs a b = writeFile fs b c true := by
  obtain ⟨d, hl, hrd, hc⟩ := readFile_ok fs a c hr
  unfold fsCopy
  rw [hl]
  simp [hrd, hc]

/-! ### Behaviour of `writeOnFileDiff` and `writeOnBytesDiff` -/

theorem readFile_congr (fs fs' : FS) (p : FsPath)
    (hl : lookupEntry fs'.entries p = lookupEntry fs.entries p) :
    readFile fs' p = readFile fs p := by
  unfold readFile
  rw [hl]

theorem readFile_of_write (fs fs' : FS) (p : FsPath) (c : Bytes)
    (hw : writeFile fs p c true = .ok fs') :
    readFile fs' p = .ok c := by
  unfold readFile
  rw [writeFile_ok_lookup fs p c true fs' hw p, if_pos rfl]
  simp

theorem writeOnFileDiff_noop_of_equal (h : Bytes → Nat) (fs : FS)
    (fr dst : FsPath) (c d : Bytes)
    (hfr : readFile fs fr = .ok c) (hdst : readFile fs dst = .ok d)
    (hEq : h d = h c) :
    writeOnFileDiff h fs fr dst = .ok fs := by
  unfold writeOnFileDiff
  rw [hfr]
  simp only [digest_eq, hdst, hEq, Except.toOption]
  simp

theorem writeOnFileDiff_copy_of_ne (h : Bytes → Nat) (fs : FS)
    (fr dst : FsPath) (c d : Bytes)
    (hfr : readFile fs fr = .ok c) (hdst : readFile fs dst = .ok d)
    (hNe : h d ≠ h c) :
    writeOnFileDiff h fs fr dst =
      match writeFile fs dst c true with
      | .error e => .err e fs
      | .ok fs' => .ok fs' := by
  unfold writeOnFileDiff
  rw [hfr]
  simp only [digest_eq, hdst, Except.toOption]
  rw [if_pos (by simpa using hNe), fsCopy_of_readFile fs fr dst c hfr]

theorem writeOnFileDiff_copy_of_probe_error (h : Bytes → Nat) (fs : FS)
    (fr dst : FsPath) (c : Bytes) (e : IOError)
    (hfr : readFile fs fr = .ok c) (hdst : readFile fs dst = .error e) :
    writeOnFileDiff h fs fr dst =
      match writeFile fs dst c true with
      | .error e => .err e fs
      | .ok fs' => .ok fs' := by
  unfold writeOnFileDiff
  rw [hfr]
  simp only [digest_eq, hdst, Except.toOption]
  rw [if_pos (by simp), fsCopy_of_readFile fs fr dst c hfr]

theorem writeOnFileDiff_err_of_source (h : Bytes → Nat) (fs : FS)
    (fr dst : FsPath) (e : IOError)
    (hfr : readFile fs fr = .error e) :
    writeOnFileDiff h fs fr dst = .err e fs := by
  unfold writeOnFileDiff
  rw [hfr]

/-! ### The claims -/

/-- C1 counterexample: the hash algorithm is a caller-supplied parameter
(`H : Hasher + Default`), and under the constant algorithm `hZero` the
one-byte contents 1 and 2 collide.  The call succeeds without writing,
and the destination `b` still differs from the source `a` afterwards,
so "destination content differs ⇒ destination ends up equal to source"
is false as stated: the code compares digests, not contents. -/
theorem writeOnFileDiff_content_mismatch_cex :
    writeOnFileDiff hZero fsAB ["a"] ["b"] = .ok fsAB ∧
    readFile fsAB ["a"] = .ok [1] ∧ readFile fsAB ["b"] = .ok [2] :=
  ⟨by decide, rfl, rfl⟩

/-- C1 (amended): for every hash algorithm, whenever the destination
exists, is readable, and its digest differs from the source's digest, a
successful `write_on_file_diff` leaves the destination's content
exactly equal to the source's content. -/
theorem writeOnFileDiff_digest_mismatch_copies (h : Bytes → Nat) (fs : FS)
    (fr dst : FsPath) (c d : Bytes) (fs' : FS)
    (hfr : readFile fs fr = .ok c) (hdst : readFile fs dst = .ok d)
    (hNe : h d ≠ h c)
    (hrun : writeOnFileDiff h fs fr dst = .ok fs') :
    readFile fs' dst = .ok c := by
  rw [writeOnFileDiff_copy_of_ne h fs fr dst c d hfr hdst hNe] at hrun
  cases hw : writeFile fs dst c true with
  | error e => rw [hw] at hrun; exact absurd hrun (by simp)
  | ok fs2 =>
    rw [hw] at hrun
    have h2 : fs2 = fs' := by simpa using hrun
    exact h2 ▸ readFile_of_write fs fs2 dst c hw

/-- C1 amended-claim witness at a concrete input. -/
theorem writeOnFileDiff_digest_mismatch_copies_witness :
    readFile fsAB1 ["b"] = .ok [1] :=
  writeOnFileDiff_digest_mismatch_copies hHead fsAB ["a"] ["b"] [1] [2] fsAB1
    rfl rfl (by decide) (by decide)

/-- C2: when the destination exists, is readable, and its digest under
the chosen algorithm equals the source's digest, `write_on_file_diff`
succeeds and returns the filesystem state completely unchanged: no
content change, no metadata (mtime/clock) change, and nothing is added
to the log of paths opened for writing. -/
theorem writeOnFileDiff_equal_digest_noop (h : Bytes → Nat) (fs : FS)
    (fr dst : FsPath) (c d : Bytes)
    (hfr : readFile fs fr = .ok c) (hdst : readFile fs dst = .ok d)
    (hEq : h d = h c) :
    writeOnFileDiff h fs fr dst = .ok fs :=
  writeOnFileDiff_noop_of_equal h fs fr dst c d hfr hdst hEq

/-- C2 witness: `a` and `c` hold the same byte, so the call returns the
state untouched. -/
theorem writeOnFileDiff_equal_digest_noop_witness :
    writeOnFileDiff hHead fsAB ["a"] ["c"] = .ok fsAB :=
  writeOnFileDiff_equal_digest_noop hHead fsAB ["a"] ["c"] [1] [1]
    rfl rfl rfl

/-- C3: a failed probe of the destination (absent, unreadable, a
directory, ...) is not fatal for either diff-copy variant: it is
treated as "no digest", the source is copied, and the call succeeds
whenever the copy itself succeeds, leaving the source content at the
destination. -/
theorem probe_failure_not_fatal :
    (∀ (h : Bytes → Nat) (fs : FS) (fr dst : FsPath) (c : Bytes) (e : IOError) (fs' : FS),
      readFile fs fr = .ok c → readFile fs dst = .error e →
      fsCopy fs fr dst = .ok fs' →
      writeOnFileDiff h fs fr dst = .ok fs' ∧ readFile fs' dst = .ok c) ∧
    (∀ (h : Bytes → Nat) (fs : FS) (bs : Bytes) (dst : FsPath) (e : IOError) (fs' : FS),
      readFile fs dst = .error e → writeFile fs dst bs true = .ok fs' →
      writeOnBytesDiff h fs bs dst = .ok fs' ∧ readFile fs' dst = .ok bs) := by
  constructor
  · intro h fs fr dst c e fs' hfr hdst hcp
    have hw : writeFile fs dst c true = .ok fs' := by
      rwa [fsCopy_of_readFile fs fr dst c hfr] at hcp
    refine ⟨?_, readFile_of_write fs fs' dst c hw⟩
    rw [writeOnFileDiff_copy_of_probe_error h fs fr dst c e hfr hdst, hw]
  · intro h fs bs dst e fs' hdst hw
    refine ⟨?_, readFile_of_write fs fs' dst bs hw⟩
    unfold writeOnBytesDiff
    simp only [digest_eq, hdst, Except.toOption]
    rw [if_pos (by simp), hw]

/-- C3 witness: copying `a` to the absent `zz`, and the bytes `[9]`
over `b` whose probe here succeeds-after-failure case is the absent
path; both calls succeed and land the source content. -/
theorem probe_failure_not_fatal_witness :
    (writeOnFileDiff hHead fsAB ["a"] ["zz"] = .ok fsZ ∧ readFile fsZ ["zz"] = .ok [1]) ∧
    (writeOnBytesDiff hHead fsPerm [9] ["u"] = .ok
        ⟨[(["u"], .file ⟨[9], 0, true⟩), (["b"], .file ⟨[2], 0, true⟩)], 1, [["u"]]⟩ ∧
      readFile ⟨[(["u"], .file ⟨[9], 0, true⟩), (["b"], .file ⟨[2], 0, true⟩)], 1, [["u"]]⟩ ["u"] = .ok [9]) :=
  ⟨probe_failure_not_fatal.1 hHead fsAB ["a"] ["zz"] [1] .notFound fsZ
      rfl rfl rfl,
    probe_failure_not_fatal.2 hHead fsPerm [9] ["u"] .permissionDenied _
      rfl rfl⟩

/-- C6: `write_on_file_diff` is idempotent: after a successful call
producing state `fs1`, running the same call again succeeds and
returns `fs1` bit-for-bit unchanged (same contents, same mtimes, same
clock, same write log), i.e. the second call performs no write. -/
theorem writeOnFileDiff_idempotent (h : Bytes → Nat) (fs : FS)
    (fr dst : FsPath) (fs1 : FS)
    (h1 : writeOnFileDiff h fs fr dst = .ok fs1) :
    writeOnFileDiff h fs1 fr dst = .ok fs1 := by
  cases hfr : readFile fs fr with
  | error e =>
    unfold writeOnFileDiff at h1
    rw [hfr] at h1
    exact absurd h1 (by simp)
  | ok c =>
    cases hdst : readFile fs dst with
    | ok d =>
      by_cases hEq : h d = h c
      · have := writeOnFileDiff_noop_of_equal h fs fr dst c d hfr hdst hEq
        have hfs : fs1 = fs := by
          rw [this] at h1
          simpa using h1.symm
        subst hfs
        exact writeOnFileDiff_noop_of_equal h fs1 fr dst c d hfr hdst hEq
      · rw [writeOnFileDiff_copy_of_ne h fs fr dst c d hfr hdst hEq] at h1
        cases hw : writeFile fs dst c true with
        | error e => rw [hw] at h1; exact absurd h1 (by simp)
        | ok fs2 =>
          rw [hw] at h1
          have h2 : fs2 = fs1 := by simpa using h1
          subst h2
          have hne : fr ≠ dst := by
            intro hfd
            rw [hfd, hdst] at hfr
            have hdc : d = c := by simpa using hfr
            exact hEq (congrArg h hdc)
          have hfr1 : readFile fs2 fr = .ok c := by
            rw [readFile_congr fs fs2 fr
              (by rw [writeFile_ok_lookup fs dst c true fs2 hw fr, if_neg hne]), hfr]
          exact writeOnFileDiff_noop_of_equal h fs2 fr dst c c hfr1
            (readFile_of_write fs fs2 dst c hw) rfl
    | error e =>
      rw [writeOnFileDiff_copy_of_probe_error h fs fr dst c e hfr hdst] at h1
      cases hw : writeFile fs dst c true with
      | error e2 => rw [hw] at h1; exact absurd h1 (by simp)
      | ok fs2 =>
        rw [hw] at h1
        have h2 : fs2 = fs1 := by simpa using h1
        subst h2
        have hne : fr ≠ dst := by
          intro hfd
          rw [hfd, hdst] at hfr
          exact absurd hfr (by simp)
        have hfr1 : readFile fs2 fr = .ok c := by
          rw [readFile_congr fs fs2 fr
            (by rw [writeFile_ok_lookup fs dst c true fs2 hw fr, if_neg hne]), hfr]
        exact writeOnFileDiff_noop_of_equal h fs2 fr dst c c hfr1
          (readFile_of_write fs fs2 dst c hw) rfl

/-- C6 witness: after copying `a` over `b`, the repeated call returns
the state unchanged. -/
theorem writeOnFileDiff_idempotent_witness :
    writeOnFileDiff hHead fsAB1 ["a"] ["b"] = .ok fsAB1 :=
  writeOnFileDiff_idempotent hHead fsAB ["a"] ["b"] fsAB1 (by decide)

/-- C7: when the source cannot be opened or read, `write_on_file_diff`
fails with exactly the underlying OS error classification (not-found,
permission-denied, ...) and the filesystem state — including the log of
paths opened for writing — is returned untouched: no write to the
destination is attempted. -/
theorem writeOnFileDiff_source_error (h : Bytes → Nat) (fs : FS)
    (fr dst : FsPath) (e : IOError)
    (hfr : readFile fs fr = .error e) :
    writeOnFileDiff h fs fr dst = .err e fs :=
  writeOnFileDiff_err_of_source h fs fr dst e hfr

/-- C7 witness: an absent source surfaces `notFound`; an unreadable
source surfaces `permissionDenied`; both leave the state untouched. -/
theorem writeOnFileDiff_source_error_witness :
    writeOnFileDiff hHead fsAB ["zz"] ["b"] = .err .notFound fsAB ∧
    writeOnFileDiff hHead fsPerm ["u"] ["b"] = .err .permissionDenied fsPerm :=
  ⟨writeOnFileDiff_source_error hHead fsAB ["zz"] ["b"] .notFound rfl,
    writeOnFileDiff_source_error hHead fsPerm ["u"] ["b"] .permissionDenied rfl⟩

/-- C8: hashing never fails: the `HashWriter` sink accepts every write
in full and reports success; hashing an in-memory byte sequence always
yields a digest; consequently the only way `write_on_bytes_diff` can
fail is the filesystem write of the destination, whose error it
returns with the state unchanged. -/
theorem hashing_never_fails :
    (∀ (hs : Hasher) (buf : Bytes),
      hashWriterWrite hs buf = .ok (hasherWrite hs buf, buf.length)) ∧
    (∀ (h : Bytes → Nat) (data : Bytes), digest h data = .ok (h data)) ∧
    (∀ (h : Bytes → Nat) (fs : FS) (bs : Bytes) (dst : FsPath) (e : IOError) (fsE : FS),
      writeOnBytesDiff h fs bs dst = .err e fsE →
      writeFile fs dst bs true = .error e ∧ fsE = fs) := by
  refine ⟨fun _ _ => rfl, fun _ _ => rfl, ?_⟩
  intro h fs bs dst e fsE hrun
  unfold writeOnBytesDiff at hrun
  simp only [digest_eq] at hrun
  split at hrun
  · cases hw : writeFile fs dst bs true with
    | error e2 =>
      rw [hw] at hrun
      obtain ⟨he, hfs⟩ : e2 = e ∧ fs = fsE := by simpa using hrun
      subst he
      exact ⟨rfl, hfs.symm⟩
    | ok fs2 => rw [hw] at hrun; exact absurd hrun (by simp)
  · exact absurd hrun (by simp)

/-- C8 witness: writing bytes onto a directory path is the one failing
step, and its error is what the call returns. -/
theorem hashing_never_fails_witness :
    writeFile fsOneDir ["t"] [1] true = .error .isADirectory ∧ fsOneDir = fsOneDir :=
  hashing_never_fails.2.2 hHead fsOneDir [1] ["t"] .isADirectory fsOneDir (by decide)

/-- C9: calling `write_on_file_diff` with the same readable path as
source and destination performs no write and succeeds with the state
untouched: both digests are computed by identically initialized hashers
over the same content. -/
theorem writeOnFileDiff_self_noop (h : Bytes → Nat) (fs : FS)
    (p : FsPath) (c : Bytes) (hp : readFile fs p = .ok c) :
    writeOnFileDiff h fs p p = .ok fs :=
  writeOnFileDiff_noop_of_equal h fs p p c c hp hp rfl

/-- C9 witness. -/
theorem writeOnFileDiff_self_noop_witness :
    writeOnFileDiff hHead fsAB ["a"] ["a"] = .ok fsAB :=
  writeOnFileDiff_self_noop hHead fsAB ["a"] [1] rfl

/-- C10: when the destination of `write_on_dir_diff` already exists as
a regular file, the `!to.exists()` guard skips directory creation; with
an empty source directory the call then succeeds with the state
untouched, so success does not make the destination a directory. -/
theorem writeOnDirDiff_dest_nondir (h : Bytes → Nat) (fuel : Nat) (fs : FS)
    (fr dst : FsPath) (fd : FileData)
    (hdst : lookupEntry fs.entries dst = some (.file fd))
    (hempty : readDir fs fr = .ok []) :
    writeOnDirDiff h (fuel + 1) fs fr dst = .ok fs := by
  unfold writeOnDirDiff
  have hex : existsPath fs dst = true := by simp [existsPath, hdst]
  simp [hex, hempty, processEntries]

/-- C10 witness: destination `f` is a regular file, source `s` is an
empty directory; the call succeeds and `f` is still that file. -/
theorem writeOnDirDiff_dest_nondir_witness :
    writeOnDirDiff hHead 9 fsC10 ["s"] ["f"] = .ok fsC10 :=
  writeOnDirDiff_dest_nondir hHead 8 fsC10 ["s"] ["f"] ⟨[5], 0, true⟩
    (by decide) rfl

/-! ### Path and lookup toolkit for the directory proofs -/

theorem Incomparable.symm (hi : Incomparable a b) : Incomparable b a :=
  ⟨hi.2, hi.1⟩

theorem Incomparable.ne (hi : Incomparable a b) : a ≠ b :=
  fun h => hi.1 (h ▸ List.prefix_rfl)

theorem Incomparable.append (hi : Incomparable a b) (r s : FsPath) :
    Incomparable (a ++ r) (b ++ s) := by
  constructor
  · intro hab
    rcases List.prefix_or_prefix_of_prefix hab (List.prefix_append b s) with h1 | h1
    · exact hi.1 ((List.prefix_append a r).trans h1)
    · rcases List.prefix_or_prefix_of_prefix (List.prefix_append a r) h1 with h2 | h2
      · exact hi.1 h2
      · exact hi.2 h2
  · intro hba
    rcases List.prefix_or_prefix_of_prefix hba (List.prefix_append a r) with h1 | h1
    · exact hi.2 ((List.prefix_append b s).trans h1)
    · rcases List.prefix_or_prefix_of_prefix (List.prefix_append b s) h1 with h2 | h2
      · exact hi.2 h2
      · exact hi.1 h2

theorem Incomparable.append_left (hi : Incomparable a b) (r : FsPath) :
    Incomparable (a ++ r) b := by
  simpa using hi.append r []

theorem Incomparable.append_right (hi : Incomparable a b) (s : FsPath) :
    Incomparable a (b ++ s) := by
  simpa using hi.append [] s

theorem incomp_snoc_ne (dst : FsPath) (n m : String) (hnm : n ≠ m)
    (r s : List String) : Incomparable (dst ++ n :: r) (dst ++ m :: s) := by
  constructor <;> intro hp <;> rw [List.prefix_append_right_inj, List.cons_prefix_cons] at hp
  · exact hnm hp.1
  · exact hnm hp.1.symm

theorem lookupEntry_some_mem (l : List (FsPath × Entry)) (p : FsPath) (e : Entry)
    (h : lookupEntry l p = some e) : (p, e) ∈ l := by
  induction l with
  | nil => simp [lookupEntry] at h
  | cons pe rest ih =>
    unfold lookupEntry at h
    split at h
    · rename_i hp
      have he : pe.2 = e := by simpa using h
      exact List.mem_cons.2 (Or.inl (by rw [← hp, ← he]))
    · exact List.mem_cons_of_mem pe (ih h)

theorem lookupEntry_isSome_of_mem (l : List (FsPath × Entry)) (pe : FsPath × Entry)
    (h : pe ∈ l) : ∃ e', lookupEntry l pe.1 = some e' := by
  induction l with
  | nil => simp at h
  | cons qe rest ih =>
    unfold lookupEntry
    by_cases hq : qe.1 = pe.1
    · exact ⟨qe.2, by rw [if_pos hq]⟩
    · rcases List.mem_cons.1 h with h1 | h1
      · exact absurd (congrArg Prod.fst h1.symm) hq
      · rw [if_neg hq]
        exact ih h1

theorem childName_append (p : FsPath) (n : String) :
    childName p (p ++ [n]) = some n := by
  unfold childName
  rw [List.dropLast_concat, if_pos rfl, List.getLast?_concat]

theorem childName_eq (p k : FsPath) (n : String) (h : childName p k = some n) :
    k = p ++ [n] := by
  unfold childName at h
  split at h
  · rename_i hd
    induction k using List.reverseRecOn with
    | nil => simp at h
    | append_singleton l a _ =>
      rw [List.dropLast_concat] at hd
      rw [List.getLast?_concat] at h
      obtain ⟨⟩ : a = n := by simpa using h
      rw [hd]
  · simp at h

theorem readDir_ok_mem (fs : FS) (p : FsPath) (names : List String) (n : String)
    (e : Entry) (hrd : readDir fs p = .ok names)
    (hl : lookupEntry fs.entries (p ++ [n]) = some e) : n ∈ names := by
  unfold readDir at hrd
  split at hrd
  · have hnames : fs.entries.filterMap (fun pe => childName p pe.1) = names := by
      simpa using hrd
    rw [← hnames]
    exact List.mem_filterMap.2 ⟨(p ++ [n], e), lookupEntry_some_mem _ _ _ hl,
      childName_append p n⟩
  · split at hrd <;> simp at hrd

theorem SrcWF_spec (fs : FS) (fr : FsPath) (hwf : SrcWF fs fr) (n : String)
    (rest : List String) (e : Entry)
    (hl : lookupEntry fs.entries (fr ++ n :: rest) = some e) (hne : rest ≠ []) :
    lookupEntry fs.entries (fr ++ [n]) = some Entry.dir := by
  refine hwf (fr ++ n :: rest, e) (lookupEntry_some_mem _ _ _ hl)
    (List.prefix_append _ _) (fr ++ [n]) ?_ (List.prefix_append _ _) ?_ ?_
  · rw [List.mem_inits, List.prefix_append_right_inj]
    exact List.cons_prefix_cons.2 ⟨rfl, List.nil_prefix⟩
  · intro hfr
    simpa using congrArg List.length hfr
  · intro heq
    exact hne (by simpa using List.append_cancel_left heq)

theorem SrcWF_snoc (fs : FS) (fr : FsPath) (hwf : SrcWF fs fr) (n : String) :
    SrcWF fs (fr ++ [n]) := by
  intro pe hmem hpre q hq hq1 hne1 hne2
  refine hwf pe hmem ((List.prefix_append fr [n]).trans hpre) q hq
    ((List.prefix_append fr [n]).trans hq1) ?_ hne2
  intro hfq
  rw [← hfq] at hq1
  simpa using hq1.length_le

theorem SrcWF_congr (fs fs' : FS) (fr : FsPath) (hwf : SrcWF fs fr)
    (hsub : ∀ x, lookupEntry fs'.entries (fr ++ x) = lookupEntry fs.entries (fr ++ x)) :
    SrcWF fs' fr := by
  intro pe hmem hpre q hq hq1 hne1 hne2
  obtain ⟨x, hx⟩ := hpre
  obtain ⟨e', he'⟩ := lookupEntry_isSome_of_mem fs'.entries pe hmem
  have he2 : lookupEntry fs.entries pe.1 = some e' := by
    rw [← hx] at he' ⊢
    rw [← hsub x]
    exact he'
  have hdir := hwf (pe.1, e') (lookupEntry_some_mem _ _ _ he2)
    ⟨x, hx⟩ q hq hq1 hne1 hne2
  obtain ⟨y, hy⟩ := hq1
  rw [← hy, hsub y]
  rw [← hy] at hdir
  exact hdir

/-! ### Effect lemmas for the single-step operations -/

theorem writeFile_frame (fs : FS) (b : FsPath) (c : Bytes) (rd : Bool) (fs' : FS)
    (hw : writeFile fs b c rd = .ok fs') (q : FsPath) (hq : q ≠ b) :
    lookupEntry fs'.entries q = lookupEntry fs.entries q := by
  rw [writeFile_ok_lookup fs b c rd fs' hw q, if_neg hq]

theorem writeFile_target_not_dir (fs : FS) (b : FsPath) (c : Bytes) (rd : Bool)
    (fs' : FS) (hw : writeFile fs b c rd = .ok fs') :
    lookupEntry fs.entries b ≠ some Entry.dir := by
  intro hd
  unfold writeFile at hw
  rw [hd] at hw
  simp at hw

theorem writeFile_dirs (fs : FS) (b : FsPath) (c : Bytes) (rd : Bool) (fs' : FS)
    (hw : writeFile fs b c rd = .ok fs') (q : FsPath)
    (hdir : lookupEntry fs.entries q = some Entry.dir) :
    lookupEntry fs'.entries q = some Entry.dir := by
  rcases eq_or_ne q b with rfl | hq
  · exact absurd hdir (writeFile_target_not_dir fs q c rd fs' hw)
  · rw [writeFile_frame fs b c rd fs' hw q hq]
    exact hdir

theorem writeOnFileDiff_ok_cases (h : Bytes → Nat) (fs : FS) (a b : FsPath)
    (fs' : FS) (hrun : writeOnFileDiff h fs a b = .ok fs') :
    fs' = fs ∨ ∃ c, readFile fs a = .ok c ∧ writeFile fs b c true = .ok fs' := by
  cases hra : readFile fs a with
  | error e =>
    rw [writeOnFileDiff_err_of_source h fs a b e hra] at hrun
    simp at hrun
  | ok c =>
    cases hrb : readFile fs b with
    | error e =>
      rw [writeOnFileDiff_copy_of_probe_error h fs a b c e hra hrb] at hrun
      cases hw : writeFile fs b c true with
      | error e2 => rw [hw] at hrun; simp at hrun
      | ok fs2 =>
        rw [hw] at hrun
        have h2 : fs2 = fs' := by simpa using hrun
        exact Or.inr ⟨c, rfl, h2 ▸ hw⟩
    | ok d =>
      by_cases hEq : h d = h c
      · rw [writeOnFileDiff_noop_of_equal h fs a b c d hra hrb hEq] at hrun
        exact Or.inl (by simpa using hrun.symm)
      · rw [writeOnFileDiff_copy_of_ne h fs a b c d hra hrb hEq] at hrun
        cases hw : writeFile fs b c true with
        | error e2 => rw [hw] at hrun; simp at hrun
        | ok fs2 =>
          rw [hw] at hrun
          have h2 : fs2 = fs' := by simpa using hrun
          exact Or.inr ⟨c, rfl, h2 ▸ hw⟩

theorem writeOnFileDiff_frame (h : Bytes → Nat) (fs : FS) (a b : FsPath)
    (fs' : FS) (hrun : writeOnFileDiff h fs a b = .ok fs') (q : FsPath)
    (hq : q ≠ b) : lookupEntry fs'.entries q = lookupEntry fs.entries q := by
  rcases writeOnFileDiff_ok_cases h fs a b fs' hrun with rfl | ⟨c, _, hw⟩
  · rfl
  · exact writeFile_frame fs b c true fs' hw q hq

theorem writeOnFileDiff_dirs (h : Bytes → Nat) (fs : FS) (a b : FsPath)
    (fs' : FS) (hrun : writeOnFileDiff h fs a b = .ok fs') (q : FsPath)
    (hdir : lookupEntry fs.entries q = some Entry.dir) :
    lookupEntry fs'.entries q = some Entry.dir := by
  rcases writeOnFileDiff_ok_cases h fs a b fs' hrun with rfl | ⟨c, _, hw⟩
  · exact hdir
  · exact writeFile_dirs fs b c true fs' hw q hdir

theorem createDirAllGo_cons (fs : FS) (done : FsPath) (n : String)
    (rest : List String) :
    createDirAllGo fs done (n :: rest) =
      match lookupEntry fs.entries (done ++ [n]) with
      | some .dir => createDirAllGo fs (done ++ [n]) rest
      | some (.file _) => .error .notADirectory
      | none =>
        createDirAllGo { entries := (done ++ [n], Entry.dir) :: fs.entries,
                         clock := fs.clock, log := fs.log } (done ++ [n]) rest := rfl

theorem createDirAllGo_preserves : ∀ (rest : List String) (fs : FS) (done : FsPath)
    (fs' : FS), createDirAllGo fs done rest = .ok fs' →
    ∀ q e, lookupEntry fs.entries q = some e → lookupEntry fs'.entries q = some e := by
  intro rest
  induction rest with
  | nil =>
    intro fs done fs' hcd q e hq
    obtain rfl : fs = fs' := by simpa [createDirAllGo] using hcd
    exact hq
  | cons n rest ih =>
    intro fs done fs' hcd q e hq
    rw [createDirAllGo_cons] at hcd
    split at hcd
    · exact ih fs _ fs' hcd q e hq
    · simp at hcd
    · rename_i hnone
      refine ih _ _ fs' hcd q e ?_
      have hqc : done ++ [n] ≠ q := by
        intro hc
        rw [hc, hq] at hnone
        exact absurd hnone (by simp)
      simpa [lookupEntry, hqc] using hq

theorem createDirAllGo_frame : ∀ (rest : List String) (fs : FS) (done : FsPath)
    (fs' : FS), createDirAllGo fs done rest = .ok fs' →
    ∀ q, ¬ q <+: done ++ rest → lookupEntry fs'.entries q = lookupEntry fs.entries q := by
  intro rest
  induction rest with
  | nil =>
    intro fs done fs' hcd q _
    obtain rfl : fs = fs' := by simpa [createDirAllGo] using hcd
    rfl
  | cons n rest ih =>
    intro fs done fs' hcd q hq
    have hq' : ¬ q <+: (done ++ [n]) ++ rest := by
      rw [List.append_cons] at hq
      exact hq
    rw [createDirAllGo_cons] at hcd
    split at hcd
    · exact ih fs _ fs' hcd q hq'
    · simp at hcd
    · have hqc : done ++ [n] ≠ q := by
        intro hc
        exact hq' (hc ▸ List.prefix_append (done ++ [n]) rest)
      rw [ih _ _ fs' hcd q hq']
      simp [lookupEntry, hqc]

theorem createDirAllGo_post : ∀ (rest : List String) (fs : FS) (done : FsPath)
    (fs' : FS), createDirAllGo fs done rest = .ok fs' →
    ∀ q, done <+: q → q <+: done ++ rest → done ≠ q →
      lookupEntry fs'.entries q = some Entry.dir := by
  intro rest
  induction rest with
  | nil =>
    intro fs done fs' _ q h1 h2 hne
    rw [List.append_nil] at h2
    exact absurd (h1.sublist.antisymm h2.sublist) hne
  | cons n rest ih =>
    intro fs done fs' hcd q h1 h2 hne
    obtain ⟨q', rfl⟩ := h1
    have hq1 : q' ≠ [] := fun hq' => hne (by simp [hq'])
    rw [List.prefix_append_right_inj] at h2
    cases q' with
    | nil => exact absurd rfl hq1
    | cons a q'' =>
      rw [List.cons_prefix_cons] at h2
      obtain ⟨rfl, hq2⟩ := h2
      rw [createDirAllGo_cons] at hcd
      rcases eq_or_ne q'' [] with rfl | hq3
      · split at hcd
        · rename_i hdir
          exact createDirAllGo_preserves rest fs _ fs' hcd _ _ hdir
        · simp at hcd
        · exact createDirAllGo_preserves rest _ _ fs' hcd _ _ (by simp [lookupEntry])
      · have hpre : done ++ [a] <+: done ++ a :: q'' := by
          rw [List.prefix_append_right_inj]
          exact List.cons_prefix_cons.2 ⟨rfl, List.nil_prefix⟩
        have hne2 : done ++ [a] ≠ done ++ a :: q'' := by
          intro hc
          have h5 : [a] = a :: q'' := List.append_cancel_left hc
          injection h5 with h6a h6b
          exact hq3 h6b.symm
        have hq4 : done ++ a :: q'' <+: (done ++ [a]) ++ rest := by
          rw [← List.append_cons, List.prefix_append_right_inj, List.cons_prefix_cons]
          exact ⟨rfl, hq2⟩
        split at hcd
        · exact ih fs _ fs' hcd _ hpre hq4 hne2
        · simp at hcd
        · exact ih _ _ fs' hcd _ hpre hq4 hne2

theorem createDirAll_preserves (fs : FS) (p : FsPath) (fs' : FS)
    (hcd : createDirAll fs p = .ok fs') (q : FsPath) (e : Entry)
    (hq : lookupEntry fs.entries q = some e) : lookupEntry fs'.entries q = some e :=
  createDirAllGo_preserves p fs [] fs' hcd q e hq

theorem createDirAll_frame (fs : FS) (p : FsPath) (fs' : FS)
    (hcd : createDirAll fs p = .ok fs') (q : FsPath) (hq : ¬ q <+: p) :
    lookupEntry fs'.entries q = lookupEntry fs.entries q :=
  createDirAllGo_frame p fs [] fs' hcd q (by simpa using hq)

theorem createDirAll_post (fs : FS) (p : FsPath) (fs' : FS)
    (hcd : createDirAll fs p = .ok fs') (q : FsPath) (h1 : q <+: p) (h2 : q ≠ []) :
    lookupEntry fs'.entries q = some Entry.dir :=
  createDirAllGo_post p fs [] fs' hcd q (List.nil_prefix) (by simpa using h1)
    (fun hc => h2 hc.symm)

/-! ### Unfolding equations for the directory recursion -/

theorem writeOnDirDiff_zero (h : Bytes → Nat) (fs : FS) (fr dst : FsPath) :
    writeOnDirDiff h 0 fs fr dst = .err .other fs := rfl

theorem writeOnDirDiff_succ (h : Bytes → Nat) (fuel : Nat) (fs : FS) (fr dst : FsPath) :
    writeOnDirDiff h (fuel + 1) fs fr dst =
      match (if existsPath fs dst then Except.ok fs else createDirAll fs dst) with
      | .error e => .err e fs
      | .ok fs1 =>
        match readDir fs1 fr with
        | .error e => .err e fs1
        | .ok names => processEntries h (writeOnDirDiff h fuel) fs1 fr dst names := rfl

theorem processEntries_nil (h : Bytes → Nat) (recur : FS → FsPath → FsPath → RunResult)
    (fs : FS) (fr dst : FsPath) :
    processEntries h recur fs fr dst [] = .ok fs := rfl

theorem processEntries_cons (h : Bytes → Nat) (recur : FS → FsPath → FsPath → RunResult)
    (fs : FS) (fr dst : FsPath) (n : String) (rest : List String) :
    processEntries h recur fs fr dst (n :: rest) =
      match (if isDir fs (fr ++ [n]) then recur fs (fr ++ [n]) (dst ++ [n])
             else if existsPath fs (dst ++ [n]) then writeOnFileDiff h fs (fr ++ [n]) (dst ++ [n])
             else match fsCopy fs (fr ++ [n]) (dst ++ [n]) with
                  | .error e => .err e fs
                  | .ok fs' => .ok fs') with
      | .ok fs' => processEntries h recur fs' fr dst rest
      | .err e fs' => .err e fs' := rfl

theorem step1_cases (fs fs1 : FS) (dst : FsPath)
    (hs : (if existsPath fs dst then Except.ok fs else createDirAll fs dst) = .ok fs1) :
    fs1 = fs ∨ createDirAll fs dst = .ok fs1 := by
  split at hs
  · exact Or.inl (by simpa using hs.symm)
  · exact Or.inr hs

/-! ### Frame and directory preservation across the recursion -/

theorem DirFrame.refl (fs : FS) (dst : FsPath) : DirFrame fs fs dst :=
  ⟨fun _ _ => rfl, fun _ hq => hq⟩

theorem DirFrame.trans {fs fs1 fs2 : FS} {dst : FsPath}
    (h1 : DirFrame fs fs1 dst) (h2 : DirFrame fs1 fs2 dst) :
    DirFrame fs fs2 dst :=
  ⟨fun q hq => (h2.1 q hq).trans (h1.1 q hq), fun q hq => h2.2 q (h1.2 q hq)⟩

theorem DirFrame.of_child {fs fs' : FS} {dst : FsPath} (n : String)
    (h1 : DirFrame fs fs' (dst ++ [n])) :
    DirFrame fs fs' dst :=
  ⟨fun q hq => h1.1 q (hq.append_right [n]), h1.2⟩

theorem dirFrame_of_writeFile (fs fs' : FS) (dst : FsPath) (n : String) (c : Bytes)
    (rd : Bool) (hw : writeFile fs (dst ++ [n]) c rd = .ok fs') :
    DirFrame fs fs' dst := by
  constructor
  · intro q hq
    exact writeFile_frame fs (dst ++ [n]) c rd fs' hw q
      (fun hc => hq.2 (hc ▸ List.prefix_append dst [n]))
  · intro q hq
    exact writeFile_dirs fs (dst ++ [n]) c rd fs' hw q hq

theorem dirFrame_of_writeOnFileDiff (h : Bytes → Nat) (fs fs' : FS) (a : FsPath)
    (dst : FsPath) (n : String)
    (hrun : writeOnFileDiff h fs a (dst ++ [n]) = .ok fs') :
    DirFrame fs fs' dst := by
  rcases writeOnFileDiff_ok_cases h fs a (dst ++ [n]) fs' hrun with rfl | ⟨c, _, hw⟩
  · exact DirFrame.refl _ dst
  · exact dirFrame_of_writeFile fs fs' dst n c true hw

theorem dirFrame_of_createDirAll (fs fs' : FS) (dst : FsPath)
    (hcd : createDirAll fs dst = .ok fs') : DirFrame fs fs' dst := by
  constructor
  · intro q hq
    exact createDirAll_frame fs dst fs' hcd q hq.1
  · intro q hq
    exact createDirAll_preserves fs dst fs' hcd q Entry.dir hq

theorem processEntries_frame_of (h : Bytes → Nat)
    (recur : FS → FsPath → FsPath → RunResult)
    (hP : ∀ fs a b fs', recur fs a b = .ok fs' → DirFrame fs fs' b) :
    ∀ names fs fr dst fs', processEntries h recur fs fr dst names = .ok fs' →
      DirFrame fs fs' dst := by
  intro names
  induction names with
  | nil =>
    intro fs fr dst fs' hrun
    rw [processEntries_nil] at hrun
    obtain rfl : fs = fs' := by simpa using hrun
    exact DirFrame.refl fs dst
  | cons n rest ihn =>
    intro fs fr dst fs' hrun
    rw [processEntries_cons] at hrun
    by_cases hd : isDir fs (fr ++ [n])
    · rw [if_pos hd] at hrun
      cases hstep : recur fs (fr ++ [n]) (dst ++ [n]) with
      | err e fs2 => rw [hstep] at hrun; exact absurd hrun (by simp)
      | ok fs2 =>
        rw [hstep] at hrun
        exact ((hP fs (fr ++ [n]) (dst ++ [n]) fs2 hstep).of_child n).trans
          (ihn fs2 fr dst fs' hrun)
    · rw [if_neg hd] at hrun
      by_cases he : existsPath fs (dst ++ [n])
      · rw [if_pos he] at hrun
        cases hstep : writeOnFileDiff h fs (fr ++ [n]) (dst ++ [n]) with
        | err e fs2 => rw [hstep] at hrun; exact absurd hrun (by simp)
        | ok fs2 =>
          rw [hstep] at hrun
          exact (dirFrame_of_writeOnFileDiff h fs fs2 (fr ++ [n]) dst n hstep).trans
            (ihn fs2 fr dst fs' hrun)
      · rw [if_neg he] at hrun
        cases hcp : fsCopy fs (fr ++ [n]) (dst ++ [n]) with
        | error e => rw [hcp] at hrun; exact absurd hrun (by simp)
        | ok fs2 =>
          rw [hcp] at hrun
          obtain ⟨d, _, _, hw⟩ := fsCopy_ok fs (fr ++ [n]) (dst ++ [n]) fs2 hcp
          exact (dirFrame_of_writeFile fs fs2 dst n d.content true hw).trans
            (ihn fs2 fr dst fs' hrun)

theorem writeOnDirDiff_frame (h : Bytes → Nat) :
    ∀ fuel fs fr dst fs', writeOnDirDiff h fuel fs fr dst = .ok fs' →
      DirFrame fs fs' dst := by
  intro fuel
  induction fuel with
  | zero =>
    intro fs fr dst fs' hrun
    rw [writeOnDirDiff_zero] at hrun
    exact absurd hrun (by simp)
  | succ f ih =>
    intro fs fr dst fs' hrun
    rw [writeOnDirDiff_succ] at hrun
    split at hrun
    · exact absurd hrun (by simp)
    · rename_i fs1 hs
      have hstep1 : DirFrame fs fs1 dst := by
        rcases step1_cases fs fs1 dst hs with rfl | hcd
        · exact DirFrame.refl fs1 dst
        · exact dirFrame_of_createDirAll fs fs1 dst hcd
      split at hrun
      · exact absurd hrun (by simp)
      · rename_i names hrd
        exact hstep1.trans (processEntries_frame_of h (writeOnDirDiff h f)
          (fun fs a b fs' => ih fs a b fs') names fs1 fr dst fs' hrun)

/-! ### Destination-only entries under disjoint trees (claim C5) -/

theorem readFile_none (fs : FS) (p : FsPath)
    (h : lookupEntry fs.entries p = none) : readFile fs p = .error .notFound := by
  unfold readFile
  rw [h]

theorem writeOnFileDiff_ok_src (h : Bytes → Nat) (fs : FS) (a b : FsPath) (fs' : FS)
    (hrun : writeOnFileDiff h fs a b = .ok fs') : ∃ c, readFile fs a = .ok c := by
  cases hra : readFile fs a with
  | error e =>
    rw [writeOnFileDiff_err_of_source h fs a b e hra] at hrun
    exact absurd hrun (by simp)
  | ok c => exact ⟨c, rfl⟩

theorem isDir_lookup (fs : FS) (p : FsPath) (hp : p ≠ []) (hd : isDir fs p = true) :
    lookupEntry fs.entries p = some Entry.dir := by
  simp only [isDir, Bool.or_eq_true, decide_eq_true_eq] at hd
  rcases hd with hd | hd
  · exact absurd hd hp
  · exact hd

theorem not_src_prefix_dst {fr dst : FsPath} (hinc : Incomparable fr dst)
    (r : FsPath) : ¬ fr ++ r <+: dst :=
  fun hp => hinc.1 ((List.prefix_append fr r).trans hp)

theorem processEntries_preserve_of (h : Bytes → Nat)
    (recur : FS → FsPath → FsPath → RunResult)
    (hPF : ∀ fs a b fs', recur fs a b = .ok fs' → DirFrame fs fs' b)
    (hP : ∀ fs a b fs', Incomparable a b → recur fs a b = .ok fs' →
      ∀ r e, r ≠ [] → lookupEntry fs.entries (a ++ r) = none →
        lookupEntry fs.entries (b ++ r) = some e →
        lookupEntry fs'.entries (b ++ r) = some e) :
    ∀ names fs fr dst fs', Incomparable fr dst →
      processEntries h recur fs fr dst names = .ok fs' →
      ∀ r e, r ≠ [] → lookupEntry fs.entries (fr ++ r) = none →
        lookupEntry fs.entries (dst ++ r) = some e →
        lookupEntry fs'.entries (dst ++ r) = some e := by
  intro names
  induction names with
  | nil =>
    intro fs fr dst fs' _ hrun r e _ _ hvict
    rw [processEntries_nil] at hrun
    obtain rfl : fs = fs' := by simpa using hrun
    exact hvict
  | cons n rest ihn =>
    intro fs fr dst fs' hinc hrun r e hr habs hvict
    cases r with
    | nil => exact absurd rfl hr
    | cons n' r' =>
    rw [processEntries_cons] at hrun
    by_cases hd : isDir fs (fr ++ [n])
    · rw [if_pos hd] at hrun
      cases hstep : recur fs (fr ++ [n]) (dst ++ [n]) with
      | err e2 fs2 => rw [hstep] at hrun; exact absurd hrun (by simp)
      | ok fs2 =>
        rw [hstep] at hrun
        have hdf : DirFrame fs fs2 (dst ++ [n]) :=
          hPF fs (fr ++ [n]) (dst ++ [n]) fs2 hstep
        have habs2 : lookupEntry fs2.entries (fr ++ n' :: r') = none := by
          rw [hdf.1 (fr ++ n' :: r') (hinc.append (n' :: r') [n])]
          exact habs
        have hvict2 : lookupEntry fs2.entries (dst ++ n' :: r') = some e := by
          rcases eq_or_ne n' n with rfl | hne'
          · rcases eq_or_ne r' ([] : List String) with rfl | hr'
            · exact absurd (isDir_lookup fs (fr ++ [n']) (by simp) hd)
                (by rw [habs]; simp)
            · have habs' : lookupEntry fs.entries ((fr ++ [n']) ++ r') = none := by
                rw [← List.append_cons]
                exact habs
              have hvict' : lookupEntry fs.entries ((dst ++ [n']) ++ r') = some e := by
                rw [← List.append_cons]
                exact hvict
              have := hP fs (fr ++ [n']) (dst ++ [n']) fs2 (hinc.append [n'] [n'])
                hstep r' e hr' habs' hvict'
              rw [← List.append_cons] at this
              exact this
          · rw [hdf.1 (dst ++ n' :: r') (incomp_snoc_ne dst n' n hne' r' [])]
            exact hvict
        exact ihn fs2 fr dst fs' hinc hrun (n' :: r') e hr habs2 hvict2
    · rw [if_neg hd] at hrun
      have hgen : ∀ fs2 c, writeFile fs (dst ++ [n]) c true = .ok fs2 →
          processEntries h recur fs2 fr dst rest = .ok fs' →
          lookupEntry fs.entries (fr ++ [n]) ≠ none →
          lookupEntry fs'.entries (dst ++ n' :: r') = some e := by
        intro fs2 c hw hrun2 hsome
        have hne2 : dst ++ n' :: r' ≠ dst ++ [n] := by
          intro hc
          have h5 : n' :: r' = [n] := List.append_cancel_left hc
          injection h5 with h6a h6b
          rw [h6a, h6b] at habs
          exact hsome habs
        have habs2 : lookupEntry fs2.entries (fr ++ n' :: r') = none := by
          rw [writeFile_frame fs (dst ++ [n]) c true fs2 hw (fr ++ n' :: r')
            (hinc.append (n' :: r') [n]).ne]
          exact habs
        have hvict2 : lookupEntry fs2.entries (dst ++ n' :: r') = some e := by
          rw [writeFile_frame fs (dst ++ [n]) c true fs2 hw (dst ++ n' :: r') hne2]
          exact hvict
        exact ihn fs2 fr dst fs' hinc hrun2 (n' :: r') e hr habs2 hvict2
      by_cases he : existsPath fs (dst ++ [n])
      · rw [if_pos he] at hrun
        cases hstep : writeOnFileDiff h fs (fr ++ [n]) (dst ++ [n]) with
        | err e2 fs2 => rw [hstep] at hrun; exact absurd hrun (by simp)
        | ok fs2 =>
          rw [hstep] at hrun
          obtain ⟨c, hra⟩ := writeOnFileDiff_ok_src h fs (fr ++ [n]) (dst ++ [n]) fs2 hstep
          obtain ⟨dta, hla, _, _⟩ := readFile_ok fs (fr ++ [n]) c hra
          have hsome : lookupEntry fs.entries (fr ++ [n]) ≠ none := by
            rw [hla]; simp
          rcases writeOnFileDiff_ok_cases h fs (fr ++ [n]) (dst ++ [n]) fs2 hstep with
            rfl | ⟨c2, _, hw⟩
          · exact ihn fs2 fr dst fs' hinc hrun (n' :: r') e hr habs hvict
          · exact hgen fs2 c2 hw hrun hsome
      · rw [if_neg he] at hrun
        cases hcp : fsCopy fs (fr ++ [n]) (dst ++ [n]) with
        | error e2 => rw [hcp] at hrun; exact absurd hrun (by simp)
        | ok fs2 =>
          rw [hcp] at hrun
          obtain ⟨dta, hla, _, hw⟩ := fsCopy_ok fs (fr ++ [n]) (dst ++ [n]) fs2 hcp
          exact hgen fs2 dta.content hw hrun (by rw [hla]; simp)

theorem writeOnDirDiff_preserve_aux (h : Bytes → Nat) :
    ∀ fuel fs fr dst fs', Incomparable fr dst →
      writeOnDirDiff h fuel fs fr dst = .ok fs' →
      ∀ r e, r ≠ [] → lookupEntry fs.entries (fr ++ r) = none →
        lookupEntry fs.entries (dst ++ r) = some e →
        lookupEntry fs'.entries (dst ++ r) = some e := by
  intro fuel
  induction fuel with
  | zero =>
    intro fs fr dst fs' _ hrun
    rw [writeOnDirDiff_zero] at hrun
    exact absurd hrun (by simp)
  | succ f ih =>
    intro fs fr dst fs' hinc hrun r e hr habs hvict
    rw [writeOnDirDiff_succ] at hrun
    split at hrun
    · exact absurd hrun (by simp)
    · rename_i fs1 hs
      have habs1 : lookupEntry fs1.entries (fr ++ r) = none := by
        rcases step1_cases fs fs1 dst hs with rfl | hcd
        · exact habs
        · rw [createDirAll_frame fs dst fs1 hcd (fr ++ r) (not_src_prefix_dst hinc r)]
          exact habs
      have hvict1 : lookupEntry fs1.entries (dst ++ r) = some e := by
        rcases step1_cases fs fs1 dst hs with rfl | hcd
        · exact hvict
        · exact createDirAll_preserves fs dst fs1 hcd (dst ++ r) e hvict
      split at hrun
      · exact absurd hrun (by simp)
      · rename_i names hrd
        exact processEntries_preserve_of h (writeOnDirDiff h f)
          (fun fs a b fs' => writeOnDirDiff_frame h f fs a b fs')
          (fun fs a b fs' => ih fs a b fs')
          names fs1 fr dst fs' hinc hrun r e hr habs1 hvict1

/-! ### Mirror completeness under disjoint trees (claim C4) -/

theorem srcWF_of_dirFrame {fs fs' : FS} {fr dst : FsPath}
    (hinc : Incomparable fr dst) (hdf : DirFrame fs fs' dst)
    (hwf : SrcWF fs fr) : SrcWF fs' fr :=
  SrcWF_congr fs fs' fr hwf (fun x => hdf.1 (fr ++ x) (hinc.append_left x))

theorem isDir_of_lookup (fs : FS) (p : FsPath)
    (hl : lookupEntry fs.entries p = some Entry.dir) : isDir fs p = true := by
  simp [isDir, hl]

theorem writeOnFileDiff_digest_post (h : Bytes → Nat) (fs : FS) (a b : FsPath)
    (fs' : FS) (hrun : writeOnFileDiff h fs a b = .ok fs') (c : Bytes)
    (hra : readFile fs a = .ok c) :
    ∃ d', lookupEntry fs'.entries b = some (.file d') ∧ h d'.content = h c := by
  cases hrb : readFile fs b with
  | error e =>
    rw [writeOnFileDiff_copy_of_probe_error h fs a b c e hra hrb] at hrun
    cases hw : writeFile fs b c true with
    | error e2 => rw [hw] at hrun; exact absurd hrun (by simp)
    | ok fs2 =>
      rw [hw] at hrun
      obtain rfl : fs2 = fs' := by simpa using hrun
      exact ⟨⟨c, fs.clock, true⟩, by
        rw [writeFile_ok_lookup fs b c true fs2 hw b, if_pos rfl], rfl⟩
  | ok d =>
    by_cases hEq : h d = h c
    · rw [writeOnFileDiff_noop_of_equal h fs a b c d hra hrb hEq] at hrun
      obtain rfl : fs = fs' := by simpa using hrun
      obtain ⟨fd, hl, _, hc⟩ := readFile_ok fs b d hrb
      exact ⟨fd, hl, by rw [hc]; exact hEq⟩
    · rw [writeOnFileDiff_copy_of_ne h fs a b c d hra hrb hEq] at hrun
      cases hw : writeFile fs b c true with
      | error e2 => rw [hw] at hrun; exact absurd hrun (by simp)
      | ok fs2 =>
        rw [hw] at hrun
        obtain rfl : fs2 = fs' := by simpa using hrun
        exact ⟨⟨c, fs.clock, true⟩, by
          rw [writeFile_ok_lookup fs b c true fs2 hw b, if_pos rfl], rfl⟩

theorem processEntries_frame_names (h : Bytes → Nat)
    (recur : FS → FsPath → FsPath → RunResult)
    (hPF : ∀ fs a b fs', recur fs a b = .ok fs' → DirFrame fs fs' b) :
    ∀ names fs fr dst fs', processEntries h recur fs fr dst names = .ok fs' →
      ∀ q, (∀ m, m ∈ names → Incomparable q (dst ++ [m])) →
      lookupEntry fs'.entries q = lookupEntry fs.entries q := by
  intro names
  induction names with
  | nil =>
    intro fs fr dst fs' hrun q _
    rw [processEntries_nil] at hrun
    obtain rfl : fs = fs' := by simpa using hrun
    rfl
  | cons n rest ihn =>
    intro fs fr dst fs' hrun q hq
    have hq0 : Incomparable q (dst ++ [n]) := hq n (List.mem_cons_self n rest)
    have hqrest : ∀ m, m ∈ rest → Incomparable q (dst ++ [m]) :=
      fun m hm => hq m (List.mem_cons_of_mem n hm)
    rw [processEntries_cons] at hrun
    by_cases hd : isDir fs (fr ++ [n])
    · rw [if_pos hd] at hrun
      cases hstep : recur fs (fr ++ [n]) (dst ++ [n]) with
      | err e fs2 => rw [hstep] at hrun; exact absurd hrun (by simp)
      | ok fs2 =>
        rw [hstep] at hrun
        rw [ihn fs2 fr dst fs' hrun q hqrest]
        exact (hPF fs (fr ++ [n]) (dst ++ [n]) fs2 hstep).1 q hq0
    · rw [if_neg hd] at hrun
      by_cases he : existsPath fs (dst ++ [n])
      · rw [if_pos he] at hrun
        cases hstep : writeOnFileDiff h fs (fr ++ [n]) (dst ++ [n]) with
        | err e fs2 => rw [hstep] at hrun; exact absurd hrun (by simp)
        | ok fs2 =>
          rw [hstep] at hrun
          rw [ihn fs2 fr dst fs' hrun q hqrest]
          exact writeOnFileDiff_frame h fs (fr ++ [n]) (dst ++ [n]) fs2 hstep q hq0.ne
      · rw [if_neg he] at hrun
        cases hcp : fsCopy fs (fr ++ [n]) (dst ++ [n]) with
        | error e => rw [hcp] at hrun; exact absurd hrun (by simp)
        | ok fs2 =>
          rw [hcp] at hrun
          obtain ⟨d, _, _, hw⟩ := fsCopy_ok fs (fr ++ [n]) (dst ++ [n]) fs2 hcp
          rw [ihn fs2 fr dst fs' hrun q hqrest]
          exact writeFile_frame fs (dst ++ [n]) d.content true fs2 hw q hq0.ne

theorem processEntries_complete_of (h : Bytes → Nat)
    (recur : FS → FsPath → FsPath → RunResult)
    (hPF : ∀ fs a b fs', recur fs a b = .ok fs' → DirFrame fs fs' b)
    (hP : ∀ fs a b fs', Incomparable a b → SrcWF fs a → recur fs a b = .ok fs' →
      ∀ r d, r ≠ [] → lookupEntry fs.entries (a ++ r) = some (.file d) →
        ∃ d', lookupEntry fs'.entries (b ++ r) = some (.file d') ∧
          h d'.content = h d.content) :
    ∀ names fs fr dst fs', Incomparable fr dst → SrcWF fs fr →
      processEntries h recur fs fr dst names = .ok fs' →
      ∀ n rest d, n ∈ names →
        lookupEntry fs.entries (fr ++ n :: rest) = some (.file d) →
        ∃ d', lookupEntry fs'.entries (dst ++ n :: rest) = some (.file d') ∧
          h d'.content = h d.content := by
  intro names
  induction names with
  | nil =>
    intro fs fr dst fs' _ _ _ n rest d hmem _
    exact absurd hmem (by simp)
  | cons m names' ihn =>
    intro fs fr dst fs' hinc hwf hrun n rest d hmem hsrc
    rw [processEntries_cons] at hrun
    by_cases hd : isDir fs (fr ++ [m])
    · rw [if_pos hd] at hrun
      cases hstep : recur fs (fr ++ [m]) (dst ++ [m]) with
      | err e2 fs2 => rw [hstep] at hrun; exact absurd hrun (by simp)
      | ok fs2 =>
        rw [hstep] at hrun
        have hdfd : DirFrame fs fs2 dst :=
          (hPF fs (fr ++ [m]) (dst ++ [m]) fs2 hstep).of_child m
        by_cases hnr : n ∈ names'
        · refine ihn fs2 fr dst fs' hinc (srcWF_of_dirFrame hinc hdfd hwf) hrun
            n rest d hnr ?_
          rw [hdfd.1 (fr ++ n :: rest) (hinc.append_left (n :: rest))]
          exact hsrc
        · have hnm : n = m := by
            rcases List.mem_cons.1 hmem with h1 | h1
            · exact h1
            · exact absurd h1 hnr
          subst hnm
          have hest : ∃ d', lookupEntry fs2.entries (dst ++ n :: rest) =
              some (.file d') ∧ h d'.content = h d.content := by
            rcases eq_or_ne rest ([] : List String) with rfl | hrest
            · rw [isDir_lookup fs (fr ++ [n]) (by simp) hd] at hsrc
              exact absurd hsrc (by simp)
            · have hsrc' : lookupEntry fs.entries ((fr ++ [n]) ++ rest) =
                  some (.file d) := by
                rw [← List.append_cons]
                exact hsrc
              obtain ⟨d', hd', hh⟩ := hP fs (fr ++ [n]) (dst ++ [n]) fs2
                (hinc.append [n] [n]) (SrcWF_snoc fs fr hwf n) hstep rest d hrest hsrc'
              refine ⟨d', ?_, hh⟩
              rw [List.append_cons]
              exact hd'
          obtain ⟨d', hd', hh⟩ := hest
          have hfin := processEntries_frame_names h recur hPF names' fs2 fr dst fs'
            hrun (dst ++ n :: rest)
            (fun m' hm' => incomp_snoc_ne dst n m'
              (fun hc => hnr (by rw [hc]; exact hm')) rest [])
          exact ⟨d', by rw [hfin]; exact hd', hh⟩
    · rw [if_neg hd] at hrun
      by_cases he : existsPath fs (dst ++ [m])
      · rw [if_pos he] at hrun
        cases hstep : writeOnFileDiff h fs (fr ++ [m]) (dst ++ [m]) with
        | err e2 fs2 => rw [hstep] at hrun; exact absurd hrun (by simp)
        | ok fs2 =>
          rw [hstep] at hrun
          have hdfd : DirFrame fs fs2 dst :=
            dirFrame_of_writeOnFileDiff h fs fs2 (fr ++ [m]) dst m hstep
          by_cases hnr : n ∈ names'
          · refine ihn fs2 fr dst fs' hinc (srcWF_of_dirFrame hinc hdfd hwf) hrun
              n rest d hnr ?_
            rw [hdfd.1 (fr ++ n :: rest) (hinc.append_left (n :: rest))]
            exact hsrc
          · have hnm : n = m := by
              rcases List.mem_cons.1 hmem with h1 | h1
              · exact h1
              · exact absurd h1 hnr
            subst hnm
            have hest : ∃ d', lookupEntry fs2.entries (dst ++ n :: rest) =
                some (.file d') ∧ h d'.content = h d.content := by
              rcases eq_or_ne rest ([] : List String) with rfl | hrest
              · obtain ⟨c, hra⟩ := writeOnFileDiff_ok_src h fs (fr ++ [n])
                  (dst ++ [n]) fs2 hstep
                obtain ⟨dta, hla, _, hc⟩ := readFile_ok fs (fr ++ [n]) c hra
                have hdta : dta = d := by
                  rw [hla] at hsrc
                  simpa using hsrc
                obtain ⟨d', hd', hh⟩ := writeOnFileDiff_digest_post h fs (fr ++ [n])
                  (dst ++ [n]) fs2 hstep c hra
                exact ⟨d', hd', by rw [hh, ← hc, hdta]⟩
              · exact absurd (isDir_of_lookup fs (fr ++ [n])
                  (SrcWF_spec fs fr hwf n rest _ hsrc hrest)) hd
            obtain ⟨d', hd', hh⟩ := hest
            have hfin := processEntries_frame_names h recur hPF names' fs2 fr dst fs'
              hrun (dst ++ n :: rest)
              (fun m' hm' => incomp_snoc_ne dst n m'
                (fun hc => hnr (by rw [hc]; exact hm')) rest [])
            exact ⟨d', by rw [hfin]; exact hd', hh⟩
      · rw [if_neg he] at hrun
        cases hcp : fsCopy fs (fr ++ [m]) (dst ++ [m]) with
        | error e2 => rw [hcp] at hrun; exact absurd hrun (by simp)
        | ok fs2 =>
          rw [hcp] at hrun
          obtain ⟨dta, hla, hrd2, hw⟩ := fsCopy_ok fs (fr ++ [m]) (dst ++ [m]) fs2 hcp
          have hdfd : DirFrame fs fs2 dst :=
            dirFrame_of_writeFile fs fs2 dst m dta.content true hw
          by_cases hnr : n ∈ names'
          · refine ihn fs2 fr dst fs' hinc (srcWF_of_dirFrame hinc hdfd hwf) hrun
              n rest d hnr ?_
            rw [hdfd.1 (fr ++ n :: rest) (hinc.append_left (n :: rest))]
            exact hsrc
          · have hnm : n = m := by
              rcases List.mem_cons.1 hmem with h1 | h1
              · exact h1
              · exact absurd h1 hnr
            subst hnm
            have hest : ∃ d', lookupEntry fs2.entries (dst ++ n :: rest) =
                some (.file d') ∧ h d'.content = h d.content := by
              rcases eq_or_ne rest ([] : List String) with rfl | hrest
              · have hdta : dta = d := by
                  rw [hla] at hsrc
                  simpa using hsrc
                refine ⟨⟨dta.content, fs.clock, true⟩, ?_, by rw [hdta]⟩
                rw [writeFile_ok_lookup fs (dst ++ [n]) dta.content true fs2 hw
                  (dst ++ n :: []), if_pos rfl]
              · exact absurd (isDir_of_lookup fs (fr ++ [n])
                  (SrcWF_spec fs fr hwf n rest _ hsrc hrest)) hd
            obtain ⟨d', hd', hh⟩ := hest
            have hfin := processEntries_frame_names h recur hPF names' fs2 fr dst fs'
              hrun (dst ++ n :: rest)
              (fun m' hm' => incomp_snoc_ne dst n m'
                (fun hc => hnr (by rw [hc]; exact hm')) rest [])
            exact ⟨d', by rw [hfin]; exact hd', hh⟩

theorem writeOnDirDiff_complete_aux (h : Bytes → Nat) :
    ∀ fuel fs fr dst fs', Incomparable fr dst → SrcWF fs fr →
      writeOnDirDiff h fuel fs fr dst = .ok fs' →
      ∀ r d, r ≠ [] → lookupEntry fs.entries (fr ++ r) = some (.file d) →
        ∃ d', lookupEntry fs'.entries (dst ++ r) = some (.file d') ∧
          h d'.content = h d.content := by
  intro fuel
  induction fuel with
  | zero =>
    intro fs fr dst fs' _ _ hrun
    rw [writeOnDirDiff_zero] at hrun
    exact absurd hrun (by simp)
  | succ f ih =>
    intro fs fr dst fs' hinc hwf hrun r d hr hsrc
    rw [writeOnDirDiff_succ] at hrun
    split at hrun
    · exact absurd hrun (by simp)
    · rename_i fs1 hs
      have hsub : ∀ x, lookupEntry fs1.entries (fr ++ x) =
          lookupEntry fs.entries (fr ++ x) := by
        intro x
        rcases step1_cases fs fs1 dst hs with rfl | hcd
        · rfl
        · exact createDirAll_frame fs dst fs1 hcd (fr ++ x) (not_src_prefix_dst hinc x)
      have hsrc1 : lookupEntry fs1.entries (fr ++ r) = some (.file d) := by
        rw [hsub r]
        exact hsrc
      have hwf1 : SrcWF fs1 fr := SrcWF_congr fs fs1 fr hwf hsub
      split at hrun
      · exact absurd hrun (by simp)
      · rename_i names hrd
        cases r with
        | nil => exact absurd rfl hr
        | cons n rest =>
          have hchild : ∃ e, lookupEntry fs1.entries (fr ++ [n]) = some e := by
            rcases eq_or_ne rest ([] : List String) with rfl | hrest
            · exact ⟨.file d, hsrc1⟩
            · exact ⟨Entry.dir, SrcWF_spec fs1 fr hwf1 n rest _ hsrc1 hrest⟩
          obtain ⟨e, he⟩ := hchild
          have hmem : n ∈ names := readDir_ok_mem fs1 fr names n e hrd he
          exact processEntries_complete_of h (writeOnDirDiff h f)
            (fun fs a b fs' => writeOnDirDiff_frame h f fs a b fs')
            (fun fs a b fs' => ih fs a b fs')
            names fs1 fr dst fs' hinc hwf1 hrun n rest d hmem hsrc1

theorem writeOnDirDiff_creates_dst (h : Bytes → Nat) (fuel : Nat) (fs : FS)
    (fr dst : FsPath) (fs' : FS) (hne : existsPath fs dst = false)
    (hrun : writeOnDirDiff h fuel fs fr dst = .ok fs') :
    ∀ q, q ≠ [] → q <+: dst → lookupEntry fs'.entries q = some Entry.dir := by
  intro q hq hqp
  cases fuel with
  | zero =>
    rw [writeOnDirDiff_zero] at hrun
    exact absurd hrun (by simp)
  | succ f =>
    rw [writeOnDirDiff_succ] at hrun
    split at hrun
    · exact absurd hrun (by simp)
    · rename_i fs1 hs
      rw [if_neg (by simp [hne])] at hs
      have hdir1 : lookupEntry fs1.entries q = some Entry.dir :=
        createDirAll_post fs dst fs1 hs q hqp hq
      split at hrun
      · exact absurd hrun (by simp)
      · rename_i names hrd
        exact (processEntries_frame_of h (writeOnDirDiff h f)
          (fun fs a b fs' => writeOnDirDiff_frame h f fs a b fs')
          names fs1 fr dst fs' hrun).2 q hdir1

/-! ### The directory claims -/

/-- C4 counterexample, in two parts.  First, a digest collision: under
the constant hasher `hZero`, source `s/x` (byte 1) and destination
`d/x` (byte 2) collide, the directory diff-copy succeeds without any
write, and the file at the mirrored path still differs from the source.
Second, an overlapping pair: with source `t/d` inside destination `t`,
the traversal first overwrites the source file `t/d/x` (byte 2, the
copy of `t/d/d/x` = byte 1 wins) and then mirrors the overwritten
content, so after a successful call the mirrored path `t/x` does not
hold the content the source file had before the call. -/
theorem writeOnDirDiff_completeness_cex :
    (writeOnDirDiff hZero 9 fsC4c ["s"] ["d"] = .ok fsC4c ∧
      readFile fsC4c ["s","x"] = .ok [1] ∧ readFile fsC4c ["d","x"] = .ok [2]) ∧
    ((writeOnDirDiff hHead 9 fsC4o ["t","d"] ["t"]).isOk = true ∧
      readFile fsC4o ["t","d","x"] = .ok [2] ∧
      readFile (writeOnDirDiff hHead 9 fsC4o ["t","d"] ["t"]).fsOf ["t","x"] = .ok [1]) :=
  ⟨⟨by decide, rfl, rfl⟩, ⟨by decide, rfl, rfl⟩⟩

/-- C4 (amended): for a well-formed source tree and a destination path
with neither of the two paths a prefix of the other, after a successful
`write_on_dir_diff` every file that was under the source at relative
path `r` has a file at the mirrored destination path whose digest under
the hash in use equals the source file's digest (byte equality can fail
only when the hash collides); and when the destination did not exist,
it and all its missing ancestor segments exist as directories
afterwards. -/
theorem writeOnDirDiff_completeness :
    (∀ (h : Bytes → Nat) (fuel : Nat) (fs : FS) (fr dst : FsPath) (fs' : FS),
      Incomparable fr dst → SrcWF fs fr →
      writeOnDirDiff h fuel fs fr dst = .ok fs' →
      ∀ r d, r ≠ [] → lookupEntry fs.entries (fr ++ r) = some (.file d) →
        ∃ d', lookupEntry fs'.entries (dst ++ r) = some (.file d') ∧
          h d'.content = h d.content) ∧
    (∀ (h : Bytes → Nat) (fuel : Nat) (fs : FS) (fr dst : FsPath) (fs' : FS),
      existsPath fs dst = false →
      writeOnDirDiff h fuel fs fr dst = .ok fs' →
      ∀ q, q ≠ [] → q <+: dst → lookupEntry fs'.entries q = some Entry.dir) :=
  ⟨fun h fuel fs fr dst fs' => writeOnDirDiff_complete_aux h fuel fs fr dst fs',
    fun h fuel fs fr dst fs' => writeOnDirDiff_creates_dst h fuel fs fr dst fs'⟩

/-- C4 amended-claim witness: copying the tree `s` to the absent `m`
creates `m` and mirrors the nested file `s/a/x`. -/
theorem writeOnDirDiff_completeness_witness :
    (∃ d', lookupEntry
        (⟨[(["m","a","x"], .file ⟨[7], 0, true⟩), (["m","a"], .dir), (["m"], .dir),
           (["s"], .dir), (["s","a"], .dir), (["s","a","x"], .file ⟨[7], 0, true⟩),
           (["d"], .dir), (["d","keep"], .file ⟨[9], 0, true⟩)], 1,
          [["m","a","x"]]⟩ : FS).entries ["m","a","x"] = some (.file d') ∧
      hHead d'.content = hHead [7]) ∧
    lookupEntry
        (⟨[(["m","a","x"], .file ⟨[7], 0, true⟩), (["m","a"], .dir), (["m"], .dir),
           (["s"], .dir), (["s","a"], .dir), (["s","a","x"], .file ⟨[7], 0, true⟩),
           (["d"], .dir), (["d","keep"], .file ⟨[9], 0, true⟩)], 1,
          [["m","a","x"]]⟩ : FS).entries ["m"] = some Entry.dir :=
  ⟨writeOnDirDiff_completeness.1 hHead 5 fsWit ["s"] ["m"] _
      (by decide) (by decide) (by decide) ["a","x"] ⟨[7], 0, true⟩ (by decide) (by decide),
    writeOnDirDiff_completeness.2 hHead 5 fsWit ["s"] ["m"] _
      (by decide) (by decide) ["m"] (by decide) (by decide)⟩

/-- C5 counterexample: with source `t/d` lying inside destination `t`,
the destination-only file `t/n/x` (byte 2; its source counterpart
`t/d/n/x` is absent before the call) is overwritten by a successful
call: the traversal first copies `t/d/d/n/x` (byte 1) to `t/d/n/x`,
then, descending into the initially present directory `t/d/n`, copies
that fresh file over `t/n/x`.  The claim is false for arbitrary
directory pairs. -/
theorem writeOnDirDiff_dest_only_cex :
    (writeOnDirDiff hHead 9 fsC5 ["t","d"] ["t"]).isOk = true ∧
    lookupEntry fsC5.entries ["t","d","n","x"] = none ∧
    readFile fsC5 ["t","n","x"] = .ok [2] ∧
    readFile (writeOnDirDiff hHead 9 fsC5 ["t","d"] ["t"]).fsOf ["t","n","x"] = .ok [1] :=
  ⟨by decide, by decide, rfl, rfl⟩

/-- C5 (amended): for every directory pair with neither path a prefix
of the other, every entry present under the destination whose source
counterpart is absent before the call is still present, unchanged,
after a successful call: the merge never deletes, prunes or overwrites
destination-only entries. -/
theorem writeOnDirDiff_preserves_dest_only (h : Bytes → Nat) (fuel : Nat) (fs : FS)
    (fr dst : FsPath) (fs' : FS) (hinc : Incomparable fr dst)
    (hrun : writeOnDirDiff h fuel fs fr dst = .ok fs') (r : FsPath) (e : Entry)
    (hr : r ≠ []) (habs : lookupEntry fs.entries (fr ++ r) = none)
    (hvict : lookupEntry fs.entries (dst ++ r) = some e) :
    lookupEntry fs'.entries (dst ++ r) = some e :=
  writeOnDirDiff_preserve_aux h fuel fs fr dst fs' hinc hrun r e hr habs hvict

/-- C5 amended-claim witness: the destination-only file `d/keep`
survives the merge of `s` into `d` unchanged. -/
theorem writeOnDirDiff_preserves_dest_only_witness :
    lookupEntry
        (⟨[(["d","a","x"], .file ⟨[7], 0, true⟩), (["d","a"], .dir),
           (["s"], .dir), (["s","a"], .dir), (["s","a","x"], .file ⟨[7], 0, true⟩),
           (["d"], .dir), (["d","keep"], .file ⟨[9], 0, true⟩)], 1,
          [["d","a","x"]]⟩ : FS).entries ["d","keep"] =
      some (.file ⟨[9], 0, true⟩) :=
  writeOnDirDiff_preserves_dest_only hHead 5 fsWit ["s"] ["d"] _
    (by decide) (by decide) ["keep"] (.file ⟨[9], 0, true⟩)
    (by decide) (by decide) (by decide)

end Wod
